import Mathlib

/-!
Verification of the Slate grammar-suggestion engine.

The development shallowly embeds the engine's pure core: text as lists of
characters, Slate text-node paths as lists of naturals, suggestions as
records of a path, an anchor offset, a focus offset and a replacement.
Definitions are translated from the TypeScript source; the few definitions
written from the specification's own words are marked as such in their
doc comments.
-/

set_option maxRecDepth 4000

/-- A text node of a paragraph, as recorded by the mapping loop of
getSuggestionsForParagraph: its Slate path, its literal text, and its
absolute start and end offsets in the flattened paragraph text. -/
structure NodeRec where
  path : List Nat
  text : List Char
  start : Nat
  stop : Nat
deriving DecidableEq

/-- A Slate point: a text-node path together with a character offset. -/
structure SPoint where
  path : List Nat
  offset : Nat
deriving DecidableEq

/-- findPathAndOffset from the first engine version: walk the node records
in order and return the first node whose inclusive interval contains the
absolute offset, translated to a node-local offset. -/
def findPathAndOffset (nodes : List NodeRec) (absOffset : Nat) : Option SPoint :=
  match nodes with
  | [] => none
  | n :: rest =>
    if n.start ≤ absOffset ∧ absOffset ≤ n.stop then some ⟨n.path, absOffset - n.start⟩
    else findPathAndOffset rest absOffset

/-- Well-formedness of a node-record list as built by the mapping loop:
each node starts where the running offset stands and ends after its text. -/
def indexWF : Nat → List NodeRec → Bool
  | _, [] => true
  | off, n :: rest => n.start == off && n.stop == n.start + n.text.length && indexWF n.stop rest

theorem indexWF_le_start (pre : List NodeRec) (off : Nat) (n : NodeRec) (rest : List NodeRec)
    (h : indexWF off (pre ++ n :: rest) = true) : off ≤ n.start := by
  induction pre generalizing off with
  | nil =>
    simp only [List.nil_append, indexWF, Bool.and_eq_true, beq_iff_eq] at h
    omega
  | cons x pre ih =>
    simp only [List.cons_append, indexWF, Bool.and_eq_true, beq_iff_eq] at h
    have hx := ih x.stop h.2
    omega

theorem indexWF_node_eq (pre : List NodeRec) (off : Nat) (n : NodeRec) (rest : List NodeRec)
    (h : indexWF off (pre ++ n :: rest) = true) : n.stop = n.start + n.text.length := by
  induction pre generalizing off with
  | nil =>
    simp only [List.nil_append, indexWF, Bool.and_eq_true, beq_iff_eq] at h
    exact h.1.2
  | cons x pre ih =>
    simp only [List.cons_append, indexWF, Bool.and_eq_true, beq_iff_eq] at h
    exact ih x.stop h.2

theorem findPathAndOffset_boundary_aux (pre : List NodeRec) (off : Nat) (n1 n2 : NodeRec)
    (post : List NodeRec)
    (hwf : indexWF off (pre ++ n1 :: n2 :: post) = true)
    (hpre : ∀ x ∈ pre, x.text ≠ [])
    (hn1 : n1.text ≠ []) :
    findPathAndOffset (pre ++ n1 :: n2 :: post) n1.stop = some ⟨n1.path, n1.stop - n1.start⟩ := by
  induction pre generalizing off with
  | nil =>
    have he := indexWF_node_eq [] off n1 (n2 :: post) hwf
    simp only [List.nil_append, findPathAndOffset]
    rw [if_pos]
    omega
  | cons x pre ih =>
    have hxwf := hwf
    simp only [List.cons_append, indexWF, Bool.and_eq_true, beq_iff_eq] at hxwf
    have hxne : x.text ≠ [] := hpre x (by simp)
    have hxlen : 0 < x.text.length := List.length_pos.mpr hxne
    have hle : x.stop ≤ n1.start := indexWF_le_start pre x.stop n1 (n2 :: post) hxwf.2
    have he : n1.stop = n1.start + n1.text.length :=
      indexWF_node_eq pre x.stop n1 (n2 :: post) hxwf.2
    have hn1len : 0 < n1.text.length := List.length_pos.mpr hn1
    simp only [List.cons_append, findPathAndOffset]
    rw [if_neg (by omega)]
    exact ih x.stop hxwf.2 (fun y hy => hpre y (by simp [hy]))

/-- C1 (amended): in a well-formed index of non-empty segments, a linear
offset lying exactly on the boundary between two consecutive segments
resolves to the END of the preceding segment (the first segment whose
closed interval contains the offset), not to offset 0 of the following
segment. -/
theorem findPathAndOffset_boundary_preceding (pre : List NodeRec) (n1 n2 : NodeRec)
    (post : List NodeRec)
    (hwf : indexWF 0 (pre ++ n1 :: n2 :: post) = true)
    (hne : ∀ x ∈ pre ++ n1 :: n2 :: post, x.text ≠ []) :
    findPathAndOffset (pre ++ n1 :: n2 :: post) n1.stop = some ⟨n1.path, n1.stop - n1.start⟩ :=
  findPathAndOffset_boundary_aux pre 0 n1 n2 post hwf
    (fun x hx => hne x (by simp [hx])) (hne n1 (by simp))

/-- Concrete two-segment index used in counterexamples. -/
def ceNodes1 : List NodeRec := [⟨[0, 0], "ab".toList, 0, 2⟩, ⟨[0, 1], "cd".toList, 2, 4⟩]

/-- C1 (counterexample): with segments "ab" at linear span 0..2 and "cd"
at 2..4, the boundary offset 2 maps to offset 2 of the FIRST segment (its
end), not to offset 0 of the second segment as the claim states. -/
theorem findPathAndOffset_boundary_ce :
    findPathAndOffset ceNodes1 2 = some ⟨[0, 0], 2⟩ ∧
      (⟨[0, 0], 2⟩ : SPoint) ≠ ⟨[0, 1], 0⟩ := by
  decide

/-- C1 (witness): the amended boundary theorem evaluated on the concrete
two-segment index. -/
theorem findPathAndOffset_boundary_preceding_witness :
    indexWF 0 ceNodes1 = true ∧ findPathAndOffset ceNodes1 2 = some ⟨[0, 0], 2⟩ :=
  ⟨by decide,
    by
      have h := findPathAndOffset_boundary_preceding [] ⟨[0, 0], "ab".toList, 0, 2⟩
        ⟨[0, 1], "cd".toList, 2, 4⟩ [] (by decide) (by decide)
      simpa using h⟩

/-- A Suggestion restricted to the data the claims use: the text-node path,
the range's anchor and focus offsets inside that node, and the replacement.
All engine constructors build same-node ranges, so one path suffices. -/
structure Sug where
  path : List Nat
  start : Nat
  stop : Nat
  repl : List Char
deriving DecidableEq

/-- Range.start of a suggestion's range: the smaller edge offset. -/
def rangeStart (s : Sug) : Nat := min s.start s.stop

/-- Range.end of a suggestion's range: the larger edge offset. -/
def rangeEnd (s : Sug) : Nat := max s.start s.stop

/-- The length of a suggestion's range. -/
def rangeLen (s : Sug) : Nat := rangeEnd s - rangeStart s

/-- One insertion step of a stable comparator sort: the new element e passes
every existing element x with c x e ≤ 0 and lands before the first x with
c x e > 0. -/
def insertCmp {α : Type} (c : α → α → Int) (e : α) : List α → List α
  | [] => [e]
  | x :: xs => if c x e ≤ 0 then x :: insertCmp c e xs else e :: x :: xs

/-- A stable sort by a JavaScript-style comparator: elements are inserted
left to right, an element equal under the comparator staying after the
earlier ones, which models Array.prototype.sort with comparator c. -/
def sortJS {α : Type} (c : α → α → Int) (l : List α) : List α :=
  l.foldl (fun acc e => insertCmp c e acc) []

theorem mem_insertCmp {α : Type} (c : α → α → Int) (e a : α) (l : List α) :
    a ∈ insertCmp c e l ↔ a = e ∨ a ∈ l := by
  induction l with
  | nil => simp [insertCmp]
  | cons x xs ih =>
    simp only [insertCmp]
    split
    · rw [List.mem_cons, ih, List.mem_cons]
      tauto
    · exact List.mem_cons

theorem pairwise_insertCmp {α : Type} (c : α → α → Int)
    (htot : ∀ a b, ¬ c a b ≤ 0 → c b a ≤ 0)
    (htrans : ∀ a b d, c a b ≤ 0 → c b d ≤ 0 → c a d ≤ 0)
    (e : α) (l : List α) (h : l.Pairwise (fun a b => c a b ≤ 0)) :
    (insertCmp c e l).Pairwise (fun a b => c a b ≤ 0) := by
  induction l with
  | nil => simp [insertCmp]
  | cons x xs ih =>
    rcases h with _ | ⟨hx, hxs⟩
    simp only [insertCmp]
    split
    · refine List.Pairwise.cons ?_ (ih hxs)
      intro a ha
      rcases (mem_insertCmp c e a xs).mp ha with rfl | ha
      · assumption
      · exact hx a ha
    · refine List.Pairwise.cons ?_ (List.Pairwise.cons hx hxs)
      intro a ha
      have hex := htot x e (by assumption)
      rcases List.mem_cons.mp ha with rfl | ha
      · exact hex
      · exact htrans e x a hex (hx a ha)

theorem pairwise_sortJS_aux {α : Type} (c : α → α → Int)
    (htot : ∀ a b, ¬ c a b ≤ 0 → c b a ≤ 0)
    (htrans : ∀ a b d, c a b ≤ 0 → c b d ≤ 0 → c a d ≤ 0)
    (l acc : List α) (hacc : acc.Pairwise (fun a b => c a b ≤ 0)) :
    (l.foldl (fun acc e => insertCmp c e acc) acc).Pairwise (fun a b => c a b ≤ 0) := by
  induction l generalizing acc with
  | nil => simpa using hacc
  | cons x xs ih =>
    exact ih (insertCmp c x acc) (pairwise_insertCmp c htot htrans x acc hacc)

theorem pairwise_sortJS {α : Type} (c : α → α → Int)
    (htot : ∀ a b, ¬ c a b ≤ 0 → c b a ≤ 0)
    (htrans : ∀ a b d, c a b ≤ 0 → c b d ≤ 0 → c a d ≤ 0)
    (l : List α) : (sortJS c l).Pairwise (fun a b => c a b ≤ 0) :=
  pairwise_sortJS_aux c htot htrans l [] (by simp)

/-- The hybrid engine's sort comparator: ascending range start only. -/
def cmpStart (a b : Sug) : Int := (rangeStart a : Int) - rangeStart b

/-- The first engine version's sort comparator: ascending range start,
ties broken by ascending range length. -/
def cmpStartLen (a b : Sug) : Int :=
  if rangeStart a ≠ rangeStart b then (rangeStart a : Int) - rangeStart b
  else (rangeLen a : Int) - rangeLen b

/-- The deduplication key of a suggestion: path, range start, range end and
replacement, as encoded by the seen-set string of the engine. -/
def sugKey (s : Sug) : List Nat × Nat × Nat × List Char :=
  (s.path, rangeStart s, rangeEnd s, s.repl)

/-- The seen-set filter of the engine: keep a suggestion only if its key
has not appeared before. -/
def dedupGo (seen : List (List Nat × Nat × Nat × List Char)) : List Sug → List Sug
  | [] => []
  | s :: rest =>
    if sugKey s ∈ seen then dedupGo seen rest
    else s :: dedupGo (sugKey s :: seen) rest

/-- The engine's light de-dupe with an initially empty seen set. -/
def dedupKeys (l : List Sug) : List Sug := dedupGo [] l

/-- Boolean test that a suggestion carries a given deduplication key. -/
def hasKey (k : List Nat × Nat × Nat × List Char) (s : Sug) : Bool :=
  decide (sugKey s = k)

theorem dedupGo_sublist (l : List Sug) (seen : List (List Nat × Nat × Nat × List Char)) :
    (dedupGo seen l).Sublist l := by
  induction l generalizing seen with
  | nil => simp [dedupGo]
  | cons s rest ih =>
    simp only [dedupGo]
    split
    · exact (ih seen).trans (List.sublist_cons_self s rest)
    · exact (ih (sugKey s :: seen)).cons₂ s

theorem dedupGo_countP (l : List Sug) (seen : List (List Nat × Nat × Nat × List Char))
    (k : List Nat × Nat × Nat × List Char) :
    (dedupGo seen l).countP (hasKey k) =
      if k ∈ seen then 0 else min 1 (l.countP (hasKey k)) := by
  induction l generalizing seen with
  | nil => simp [dedupGo]
  | cons s rest ih =>
    simp only [dedupGo]
    by_cases hk : sugKey s = k
    · subst hk
      by_cases hs : sugKey s ∈ seen
      · rw [if_pos hs, ih seen, if_pos hs, if_pos hs]
      · have h1 : hasKey (sugKey s) s = true := by simp [hasKey]
        rw [if_neg hs, List.countP_cons, h1, if_pos rfl, ih (sugKey s :: seen),
          if_pos (List.mem_cons_self _ _), if_neg hs, List.countP_cons, h1, if_pos rfl]
        omega
    · have hck : hasKey k s = false := by simp [hasKey, hk]
      by_cases hs : sugKey s ∈ seen
      · rw [if_pos hs, ih seen, List.countP_cons, hck]
        simp
      · rw [if_neg hs, List.countP_cons, hck]
        simp only [Bool.false_eq_true, if_false, Nat.add_zero]
        rw [ih (sugKey s :: seen)]
        have hmm : (k ∈ sugKey s :: seen) ↔ (k ∈ seen) := by
          constructor
          · intro h
            rcases List.mem_cons.mp h with h1 | h1
            · exact absurd h1.symm hk
            · exact h1
          · intro h
            exact List.mem_cons_of_mem _ h
        rw [if_congr hmm rfl rfl, List.countP_cons, hck]
        simp

theorem dedupGo_find (l : List Sug) (seen : List (List Nat × Nat × Nat × List Char))
    (k : List Nat × Nat × Nat × List Char) (hk : k ∉ seen) :
    (dedupGo seen l).find? (hasKey k) = l.find? (hasKey k) := by
  induction l generalizing seen with
  | nil => simp [dedupGo]
  | cons s rest ih =>
    simp only [dedupGo]
    by_cases hks : sugKey s = k
    · subst hks
      rw [if_neg hk]
      simp [List.find?, hasKey]
    · have hck : hasKey k s = false := by simp [hasKey, hks]
      by_cases hs : sugKey s ∈ seen
      · rw [if_pos hs, ih seen hk]
        simp [List.find?, hck]
      · rw [if_neg hs]
        simp only [List.find?, hck]
        exact ih (sugKey s :: seen) (by
          intro hmem
          rcases List.mem_cons.mp hmem with h1 | h1
          · exact hks h1.symm
          · exact hk h1)

/-- C4: deduplication on (path, start, end, replacement) keeps exactly one
suggestion per key that occurs at least once, and the kept one is the first
occurrence of that key in the pre-deduplication order. -/
theorem dedup_unique_first (l : List Sug) (k : List Nat × Nat × Nat × List Char) :
    (dedupKeys l).countP (hasKey k) = min 1 (l.countP (hasKey k)) ∧
      (dedupKeys l).find? (hasKey k) = l.find? (hasKey k) := by
  constructor
  · rw [dedupKeys, dedupGo_countP, if_neg (List.not_mem_nil k)]
  · rw [dedupKeys, dedupGo_find l [] k (List.not_mem_nil k)]

/-- A word character in the sense of JavaScript regex \w. -/
def isWordChar (c : Char) : Bool := c.isAlpha || c.isDigit || c == '_'

/-- A whitespace character (the ASCII part of JavaScript \s and of
String.prototype.trim, which covers every character the engine meets). -/
def isSpaceChar (c : Char) : Bool := c == ' ' || c == '\t' || c == '\n' || c == '\r'

/-- String.prototype.trim: strip whitespace from both ends. -/
def trimJS (l : List Char) : List Char :=
  ((l.dropWhile isSpaceChar).reverse.dropWhile isSpaceChar).reverse

/-- A match in the LanguageTool wire shape shared by the remote adapter and
the local fallback rules: linear offset, length, replacement candidates. -/
structure LTMatch where
  offset : Nat
  length : Nat
  replacements : List (List Char)
deriving DecidableEq

/-- The hybrid engine's match processing: every match is intersected with
every text node, each non-empty intersection yielding one suggestion whose
replacement is the first candidate's value or the empty string. -/
def processMatches (nodes : List NodeRec) (ms : List LTMatch) : List Sug :=
  ms.flatMap fun m =>
    nodes.filterMap fun node =>
      let iS := max m.offset node.start
      let iE := min (m.offset + m.length) node.stop
      if iS < iE then
        some ⟨node.path, iS - node.start, iE - node.start, m.replacements.head?.getD []⟩
      else none

/-- A suggestion of the first engine version's match loop, whose range
edges may sit in different text nodes. -/
structure Sug1 where
  path : List Nat
  anchor : SPoint
  focus : SPoint
  repl : List Char
deriving DecidableEq

/-- The first engine version's match loop: a match with no replacement
candidate is skipped, otherwise both range edges are resolved through
findPathAndOffset and the first candidate becomes the replacement. -/
def processLTMatches (nodes : List NodeRec) (ms : List LTMatch) : List Sug1 :=
  ms.filterMap fun m =>
    match m.replacements with
    | [] => none
    | r :: _ =>
      match findPathAndOffset nodes m.offset, findPathAndOffset nodes (m.offset + m.length) with
      | some sp, some ep => some ⟨sp.path, sp, ep, r⟩
      | some _, none => none
      | none, _ => none

/-- The tail of the hybrid getSuggestionsForParagraph, with the suggestion
sources (remote plus local matches, and the point-of-view batch) passed in
as data: the early return on blank text, then position mapping, the stable
sort by range start, and the seen-set de-dupe. -/
def getSuggestionsForParagraphHybrid (text : List Char) (nodes : List NodeRec)
    (ms : List LTMatch) (povSugs : List Sug) : List Sug :=
  if trimJS text = [] then []
  else dedupKeys (sortJS cmpStart (processMatches nodes ms ++ povSugs))

/-- C3 (amended): the final list of every pass is non-decreasing in range
start; the equal-start tie-break by ascending range length holds for the
first engine version's comparator, while the hybrid engine sorts by start
only, leaving equal-start entries in their stable pre-sort order. -/
theorem aggregator_sorted (l : List Sug) :
    (dedupKeys (sortJS cmpStart l)).Pairwise (fun a b => rangeStart a ≤ rangeStart b) ∧
      (dedupKeys (sortJS cmpStartLen l)).Pairwise
        (fun a b => rangeStart a < rangeStart b ∨
          (rangeStart a = rangeStart b ∧ rangeLen a ≤ rangeLen b)) := by
  constructor
  · have hp := pairwise_sortJS cmpStart
      (by intro a b h; simp only [cmpStart] at *; omega)
      (by intro a b d h1 h2; simp only [cmpStart] at *; omega) l
    have hp2 := List.Pairwise.sublist (dedupGo_sublist (sortJS cmpStart l) []) hp
    exact hp2.imp (by intro a b h; simp only [cmpStart] at h; omega)
  · have hp := pairwise_sortJS cmpStartLen
      (by
        intro a b h
        simp only [cmpStartLen] at *
        by_cases hs : rangeStart a = rangeStart b
        · rw [if_neg (by omega)] at h ⊢
          omega
        · rw [if_pos (by omega)] at h
          rw [if_pos (by omega)]
          omega)
      (by
        intro a b d h1 h2
        simp only [cmpStartLen] at *
        by_cases hab : rangeStart a = rangeStart b <;> by_cases hbd : rangeStart b = rangeStart d <;>
          [skip; skip; skip; skip] <;> split_ifs at h1 h2 ⊢ <;> omega) l
    have hp2 := List.Pairwise.sublist (dedupGo_sublist (sortJS cmpStartLen l) []) hp
    refine hp2.imp ?_
    intro a b h
    simp only [cmpStartLen] at h
    by_cases hs : rangeStart a = rangeStart b
    · rw [if_neg (by omega)] at h
      right
      exact ⟨hs, by omega⟩
    · rw [if_pos (by omega)] at h
      left
      omega

/-- A single ten-character text node used in concrete computations. -/
def ceNode2 : NodeRec := ⟨[0, 0], "0123456789".toList, 0, 10⟩

/-- C3 (counterexample): two remote matches at the same offset, the longer
first, flow through the hybrid pass into a final list whose equal-start
entries have strictly decreasing range lengths, refuting the claimed
length tie-break for the hybrid aggregator. -/
theorem aggregator_equal_start_ce :
    getSuggestionsForParagraphHybrid "0123456789".toList [ceNode2]
        [⟨0, 3, [['x']]⟩, ⟨0, 1, [['y']]⟩] [] =
      [⟨[0, 0], 0, 3, ['x']⟩, ⟨[0, 0], 0, 1, ['y']⟩] ∧
      rangeStart (⟨[0, 0], 0, 3, ['x']⟩ : Sug) = rangeStart (⟨[0, 0], 0, 1, ['y']⟩ : Sug) ∧
      rangeLen (⟨[0, 0], 0, 1, ['y']⟩ : Sug) < rangeLen (⟨[0, 0], 0, 3, ['x']⟩ : Sug) := by
  decide

/-- C10: a paragraph whose flattened text is empty or all whitespace makes
the hybrid pass return the empty list, whatever the remote, local and
point-of-view sources would have contributed. -/
theorem emptyParagraph_returns_nil (text : List Char) (nodes : List NodeRec)
    (ms : List LTMatch) (povSugs : List Sug)
    (h : ∀ c ∈ text, isSpaceChar c = true) :
    getSuggestionsForParagraphHybrid text nodes ms povSugs = [] := by
  have h1 : text.dropWhile isSpaceChar = [] := List.dropWhile_eq_nil_iff.mpr h
  have ht : trimJS text = [] := by simp [trimJS, h1]
  simp [getSuggestionsForParagraphHybrid, ht]

/-- C10 (witness): the blank-paragraph theorem evaluated on a two-space
paragraph with a pending match and a pending pov suggestion. -/
theorem emptyParagraph_returns_nil_witness :
    (∀ c ∈ "  ".toList, isSpaceChar c = true) ∧
      getSuggestionsForParagraphHybrid "  ".toList [ceNode2] [⟨0, 1, [['x']]⟩]
        [⟨[0, 0], 0, 1, ['y']⟩] = [] :=
  ⟨by decide,
    emptyParagraph_returns_nil "  ".toList [ceNode2] [⟨0, 1, [['x']]⟩]
      [⟨[0, 0], 0, 1, ['y']⟩] (by decide)⟩

/-- C8 (counterexample): in the hybrid engine a remote match whose
replacements list is empty is NOT dropped; it yields a grammar suggestion
whose replacement is the empty string, that is, a deletion edit. -/
theorem emptyReplacements_ce :
    processMatches [ceNode2] [⟨2, 3, []⟩] = [⟨[0, 0], 2, 5, []⟩] ∧
      ([⟨[0, 0], 2, 5, []⟩] : List Sug) ≠ [] := by
  decide

/-- C8 (amended): the first engine version consumes only the first
replacement candidate and drops matches with none; the hybrid engine also
consumes only the first candidate but turns a match without candidates
into a suggestion with an empty replacement instead of dropping it. -/
theorem firstReplacement_policy :
    (∀ (nodes : List NodeRec) (ms : List LTMatch) (s : Sug1),
        s ∈ processLTMatches nodes ms →
        ∃ m ∈ ms, ∃ r rs, m.replacements = r :: rs ∧ s.repl = r) ∧
      (∀ (nodes : List NodeRec) (m : LTMatch), m.replacements = [] →
        processLTMatches nodes [m] = []) ∧
      (∀ (nodes : List NodeRec) (ms : List LTMatch) (s : Sug),
        s ∈ processMatches nodes ms →
        ∃ m ∈ ms, s.repl = m.replacements.head?.getD []) := by
  refine ⟨?_, ?_, ?_⟩
  · intro nodes ms s hs
    obtain ⟨m, hm, heq⟩ := List.mem_filterMap.mp hs
    refine ⟨m, hm, ?_⟩
    rcases hrep : m.replacements with _ | ⟨r, rs⟩
    · rw [hrep] at heq
      simp at heq
    · refine ⟨r, rs, rfl, ?_⟩
      rw [hrep] at heq
      rcases h1 : findPathAndOffset nodes m.offset with _ | sp <;>
        rcases h2 : findPathAndOffset nodes (m.offset + m.length) with _ | ep <;>
          rw [h1, h2] at heq <;> simp at heq
      rw [← heq]
  · intro nodes m h
    simp [processLTMatches, h]
  · intro nodes ms s hs
    obtain ⟨m, hm, hmem⟩ := List.mem_flatMap.mp hs
    obtain ⟨node, _, heq⟩ := List.mem_filterMap.mp hmem
    refine ⟨m, hm, ?_⟩
    simp only at heq
    split at heq
    · cases Option.some.inj heq
      rfl
    · exact absurd heq (by simp)

/-- A one-candidate remote match used in the C8 witness. -/
def ceM3 : LTMatch := ⟨0, 2, [['z']]⟩

/-- C8 (witness): the first-candidate policy evaluated on a concrete
two-segment index and a one-candidate match. -/
theorem firstReplacement_policy_witness :
    (⟨[0, 0], ⟨[0, 0], 0⟩, ⟨[0, 0], 2⟩, ['z']⟩ : Sug1) ∈ processLTMatches ceNodes1 [ceM3] ∧
      ∃ m ∈ [ceM3], ∃ r rs, m.replacements = r :: rs ∧
        (⟨[0, 0], ⟨[0, 0], 0⟩, ⟨[0, 0], 2⟩, ['z']⟩ : Sug1).repl = r :=
  ⟨by decide,
    firstReplacement_policy.1 ceNodes1 [ceM3] ⟨[0, 0], ⟨[0, 0], 0⟩, ⟨[0, 0], 2⟩, ['z']⟩
      (by decide)⟩

/-- The three point-of-view categories. -/
inductive POV
  | he
  | she
  | they
deriving DecidableEq

/-- The pronoun alternation of the engine's shared regex, in source order. -/
def pronounList : List (List Char) :=
  ["he".toList, "him".toList, "his".toList, "she".toList, "her".toList, "hers".toList,
    "they".toList, "them".toList, "their".toList, "theirs".toList]

/-- PRONOUNS[target].map as a literal set: the keys of the identity map of
each category. -/
def targetSet : POV → List (List Char)
  | POV.he => ["he".toList, "him".toList, "his".toList]
  | POV.she => ["she".toList, "her".toList, "hers".toList]
  | POV.they => ["they".toList, "them".toList, "their".toList, "theirs".toList]

/-- POV_MAP: the cross-mapping table from a lower-cased source literal to
the replacement literal of the target category; absent cells are none. -/
def povMap : POV → List Char → Option (List Char)
  | POV.he, w =>
    List.lookup w
      [("she".toList, "he".toList), ("her".toList, "him".toList), ("hers".toList, "his".toList),
        ("they".toList, "he".toList), ("them".toList, "him".toList),
        ("their".toList, "his".toList), ("theirs".toList, "his".toList)]
  | POV.she, w =>
    List.lookup w
      [("he".toList, "she".toList), ("him".toList, "her".toList), ("his".toList, "her".toList),
        ("they".toList, "she".toList), ("them".toList, "her".toList),
        ("their".toList, "her".toList), ("theirs".toList, "hers".toList)]
  | POV.they, w =>
    List.lookup w
      [("he".toList, "they".toList), ("him".toList, "them".toList),
        ("his".toList, "their".toList), ("she".toList, "they".toList),
        ("her".toList, "them".toList), ("hers".toList, "theirs".toList)]

/-- Does the pronoun word w match case-insensitively at the head of l with
a word boundary right after it? -/
def pronounAt (l w : List Char) : Bool :=
  ((l.take w.length).map Char.toLower == w) &&
    (match (l.drop w.length).head? with
      | none => true
      | some c => !isWordChar c)

/-- Try each alternative in order and return the matched token slice. -/
def findTokenIn : List (List Char) → List Char → Option (List Char)
  | [], _ => none
  | w :: ws, l => if pronounAt l w then some (l.take w.length) else findTokenIn ws l

/-- The pronoun alternation tried at the head of l, in regex order. -/
def findPronounAt (l : List Char) : Option (List Char) := findTokenIn pronounList l

/-- All pronoun occurrences of the shared regex over a text, as pairs of an
absolute offset and the matched token: a match needs a non-word character
(or the text start) before it and after it; positions inside a word are
skipped via the previous-character flag, exactly as the regex's word
boundaries dictate. -/
def scanPronouns : Bool → Nat → List Char → List (Nat × List Char)
  | _, _, [] => []
  | prevWord, i, c :: rest =>
    match if prevWord then none else findPronounAt (c :: rest) with
    | some tok => (i, tok) :: scanPronouns (isWordChar c) (i + 1) rest
    | none => scanPronouns (isWordChar c) (i + 1) rest

/-- Capitalize the first character of a word. -/
def capFirst : List Char → List Char
  | [] => []
  | c :: cs => c.toUpper :: cs

/-- matchTokenCase of the propagation source: if the token's FIRST letter
is upper case, capitalize the replacement's first letter, else return the
replacement as given. Tokens are non-empty at every call site. -/
def matchTokenCase (repl tok : List Char) : List Char :=
  match tok with
  | [] => repl
  | t0 :: _ => if t0.toUpper = t0 then capFirst repl else repl

/-- matchCase, the shared case-preservation utility: fully upper-case
original gives a fully upper-case replacement, an upper-case first letter
capitalizes only the replacement's first letter, anything else returns the
replacement as given. -/
def matchCase (desired original : List Char) : List Char :=
  if original.map Char.toUpper = original then desired.map Char.toUpper
  else
    match original with
    | [] => desired
    | o :: _ => if o.toUpper = o then capFirst desired else desired

/-- The per-occurrence body of getPOVPropagationSuggestions: skip tokens
already in the target set, skip tokens without a table cell, otherwise
build the suggestion over the token's range. -/
def povPropMap (path : List Nat) (target : POV) (it : Nat × List Char) : Option Sug :=
  if it.2.map Char.toLower ∈ targetSet target then none
  else
    match povMap target (it.2.map Char.toLower) with
    | none => none
    | some m => some ⟨path, it.1, it.1 + it.2.length, matchTokenCase m it.2⟩

/-- getPOVPropagationSuggestions: scan all pronoun occurrences of a text
node and map each through the skip/lookup/case pipeline. -/
def getPOVPropagationSuggestions (text : List Char) (path : List Nat) (target : POV) : List Sug :=
  (scanPronouns false 0 text).filterMap (povPropMap path target)

/-- C5: on a text whose every pronoun occurrence already belongs to the
target category's literal set, propagation produces zero suggestions. -/
theorem povPropagation_idempotent (text : List Char) (path : List Nat) (target : POV)
    (h : ∀ it ∈ scanPronouns false 0 text, it.2.map Char.toLower ∈ targetSet target) :
    getPOVPropagationSuggestions text path target = [] := by
  apply List.filterMap_eq_nil_iff.mpr
  intro it hit
  simp [povPropMap, h it hit]

/-- C5 (witness): idempotence evaluated on an already-aligned text. -/
theorem povPropagation_idempotent_witness :
    (∀ it ∈ scanPronouns false 0 "He walks and he sits".toList,
        it.2.map Char.toLower ∈ targetSet POV.he) ∧
      getPOVPropagationSuggestions "He walks and he sits".toList [0] POV.he = [] :=
  ⟨by decide, povPropagation_idempotent "He walks and he sits".toList [0] POV.he (by decide)⟩

theorem findTokenIn_ne_nil (ws : List (List Char)) (l tok : List Char)
    (hne : ∀ w ∈ ws, w ≠ []) (h : findTokenIn ws l = some tok) : tok ≠ [] := by
  induction ws with
  | nil => simp [findTokenIn] at h
  | cons w ws ih =>
    simp only [findTokenIn] at h
    split at h
    · rename_i hp
      cases Option.some.inj h
      simp only [pronounAt, Bool.and_eq_true, beq_iff_eq] at hp
      intro htok
      have hw : w = [] := by
        rw [htok] at hp
        simpa using hp.1.symm
      exact hne w (by simp) hw
    · exact ih (fun w' hw' => hne w' (by simp [hw'])) h

theorem scanPronouns_tok_ne_nil (l : List Char) (prevWord : Bool) (i : Nat)
    (it : Nat × List Char) (h : it ∈ scanPronouns prevWord i l) : it.2 ≠ [] := by
  induction l generalizing prevWord i with
  | nil => simp [scanPronouns] at h
  | cons c rest ih =>
    simp only [scanPronouns] at h
    rcases hf : (if prevWord then none else findPronounAt (c :: rest)) with _ | tok
    · rw [hf] at h
      exact ih (isWordChar c) (i + 1) h
    · rw [hf] at h
      have h2 : it ∈ (i, tok) :: scanPronouns (isWordChar c) (i + 1) rest := h
      rcases List.mem_cons.mp h2 with rfl | h3
      · by_cases hw : prevWord
        · rw [if_pos hw] at hf
          simp at hf
        · rw [if_neg hw] at hf
          exact findTokenIn_ne_nil pronounList (c :: rest) tok (by decide) hf
      · exact ih (isWordChar c) (i + 1) h3

/-- C6 (amended): every pronoun occurrence with a table cell yields a
suggestion whose replacement is case-adjusted by the FIRST letter only: a
token with an upper-case first letter (including a fully upper-case token)
capitalizes the replacement's first letter; a token that is not fully
upper-case is treated exactly as the shared matchCase rule would treat it,
but a fully upper-case token does NOT produce a fully upper-case
replacement. -/
theorem povPropagation_case_first_letter (text : List Char) (path : List Nat) (target : POV)
    (i : Nat) (tok m : List Char)
    (hmem : (i, tok) ∈ scanPronouns false 0 text)
    (hnt : tok.map Char.toLower ∉ targetSet target)
    (hm : povMap target (tok.map Char.toLower) = some m) :
    (⟨path, i, i + tok.length, matchTokenCase m tok⟩ : Sug) ∈
        getPOVPropagationSuggestions text path target ∧
      tok ≠ [] ∧
      (tok.map Char.toUpper = tok → matchTokenCase m tok = capFirst m) ∧
      (tok.map Char.toUpper ≠ tok → matchTokenCase m tok = matchCase m tok) := by
  have hne := scanPronouns_tok_ne_nil text false 0 (i, tok) hmem
  refine ⟨?_, hne, ?_, ?_⟩
  · exact List.mem_filterMap.mpr ⟨(i, tok), hmem, by simp [povPropMap, hnt, hm]⟩
  · intro hall
    rcases tok with _ | ⟨t0, ts⟩
    · exact absurd rfl hne
    · rw [List.map_cons] at hall
      have ht0 : t0.toUpper = t0 := (List.cons.inj hall).1
      simp [matchTokenCase, ht0]
  · intro hnall
    rcases tok with _ | ⟨t0, ts⟩
    · exact absurd rfl hne
    · simp only [matchCase, if_neg hnall, matchTokenCase]

/-- C6 (counterexample): the fully upper-case original "HER" with target
they yields replacement "Them", not the "THEM" the claim states. -/
theorem matchTokenCase_allcaps_ce :
    getPOVPropagationSuggestions "HER".toList [0] POV.they = [⟨[0], 0, 3, "Them".toList⟩] ∧
      "Them".toList ≠ "THEM".toList := by
  decide

/-- C6 (witness): the first-letter case rule evaluated on the occurrence
"Him" with target they. -/
theorem povPropagation_case_first_letter_witness :
    ((0, "Him".toList) ∈ scanPronouns false 0 "Him ran".toList) ∧
      ((⟨[0], 0, 0 + "Him".toList.length, matchTokenCase "them".toList "Him".toList⟩ : Sug) ∈
          getPOVPropagationSuggestions "Him ran".toList [0] POV.they ∧
        "Him".toList ≠ [] ∧
        ("Him".toList.map Char.toUpper = "Him".toList →
          matchTokenCase "them".toList "Him".toList = capFirst "them".toList) ∧
        ("Him".toList.map Char.toUpper ≠ "Him".toList →
          matchTokenCase "them".toList "Him".toList = matchCase "them".toList "Him".toList)) :=
  ⟨by decide,
    povPropagation_case_first_letter "Him ran".toList [0] POV.they 0 "Him".toList
      "them".toList (by decide) (by decide) (by decide)⟩

/-- Slate's Path.compare: lexicographic comparison where an exhausted path
(an ancestor) compares as equal. -/
def pathCompare : List Nat → List Nat → Int
  | [], _ => 0
  | _ :: _, [] => 0
  | a :: as, b :: bs => if a < b then -1 else if b < a then 1 else pathCompare as bs

theorem pathCompare_self (p : List Nat) : pathCompare p p = 0 := by
  induction p with
  | nil => rfl
  | cons a as ih => simp [pathCompare, ih]

/-- The comparator of applyAllPOVSuggestions: descending path order first,
then descending anchor offset. -/
def cmpPOVBatch (a b : Sug) : Int :=
  if pathCompare a.path b.path ≠ 0 then -(pathCompare a.path b.path)
  else (b.start : Int) - (a.start : Int)

/-- One Transforms.insertText step on a single node's text: replace the
suggestion's range content with its replacement. -/
def applyOne (t : List Char) (s : Sug) : List Char :=
  t.take (rangeStart s) ++ s.repl ++ t.drop (rangeEnd s)

/-- applyAllPOVSuggestions restricted to one text node: sort the batch by
the descending comparator and apply each suggestion in turn. -/
def applyAllPOVSuggestions (t : List Char) (sugs : List Sug) : List Char :=
  (sortJS cmpPOVBatch sugs).foldl applyOne t

/-- Modelled from the spec: "sequential left-to-right independent
application on the original text" — each suggestion's range is read
against the ORIGINAL text's coordinates, the pieces being spliced in
ascending order; pos is the original-text position reached so far. -/
def applyLTRFrom (t : List Char) (pos : Nat) : List Sug → List Char
  | [] => t.drop pos
  | s :: rest =>
    (t.drop pos).take (rangeStart s - pos) ++ s.repl ++ applyLTRFrom t (rangeEnd s) rest

theorem sortJS_desc_aux (p : List Nat) (es : List Sug) :
    ∀ (acc : List Sug),
      (∀ e ∈ es, e.path = p) → (∀ e ∈ acc, e.path = p) →
      (∀ e ∈ es, e.start < e.stop) →
      List.Chain' (fun a b => a.stop ≤ b.start) es →
      (∀ x ∈ acc.head?.toList, ∀ e ∈ es.head?.toList, x.start < e.start) →
      es.foldl (fun acc e => insertCmp cmpPOVBatch e acc) acc = es.reverse ++ acc := by
  induction es with
  | nil => intro acc _ _ _ _ _; simp
  | cons e rest ih =>
    intro acc hpes hpacc hlt hch hconn
    have hins : insertCmp cmpPOVBatch e acc = e :: acc := by
      cases acc with
      | nil => rfl
      | cons x xs =>
        have hx : x.start < e.start := hconn x (by simp) e (by simp)
        have hpx : x.path = p := hpacc x (by simp)
        have hpe : e.path = p := hpes e (by simp)
        have hc : ¬ (cmpPOVBatch x e ≤ 0) := by
          simp only [cmpPOVBatch, hpx, hpe, pathCompare_self]
          rw [if_neg (by simp)]
          omega
        simp [insertCmp, hc]
    have hconn2 : ∀ r ∈ rest.head?.toList, e.stop ≤ r.start := by
      cases rest with
      | nil => intro r hr; simp at hr
      | cons r rest' =>
        intro r' hr'
        simp at hr'
        subst hr'
        exact (List.chain'_cons.mp hch).1
    have hstep := ih (e :: acc) (fun x hx => hpes x (by simp [hx]))
      (by
        intro x hx
        rcases List.mem_cons.mp hx with rfl | hx2
        · exact hpes x (by simp)
        · exact hpacc x hx2)
      (fun x hx => hlt x (by simp [hx])) hch.tail
      (by
        intro y hym r hrm
        simp at hym
        have h1 : e.stop ≤ r.start := hconn2 r hrm
        have h2 : e.start < e.stop := hlt e (by simp)
        rw [hym]
        omega)
    rw [List.foldl_cons, hins, hstep]
    simp

theorem sortJS_desc (p : List Nat) (es : List Sug)
    (hpes : ∀ e ∈ es, e.path = p) (hlt : ∀ e ∈ es, e.start < e.stop)
    (hch : List.Chain' (fun a b => a.stop ≤ b.start) es) :
    sortJS cmpPOVBatch es = es.reverse := by
  have h := sortJS_desc_aux p es [] hpes (by simp) hlt hch (by simp)
  simpa [sortJS] using h

theorem foldr_applyOne_splice (es : List Sug) :
    ∀ (t : List Char) (pos : Nat),
      (∀ e ∈ es, e.start < e.stop) →
      (∀ e ∈ es, e.stop ≤ t.length) →
      List.Chain' (fun a b => a.stop ≤ b.start) es →
      (∀ e ∈ es.head?.toList, pos ≤ e.start) →
      pos ≤ t.length →
      es.foldr (fun e acc => applyOne acc e) t = t.take pos ++ applyLTRFrom t pos es := by
  induction es with
  | nil =>
    intro t pos _ _ _ _ _
    simp [applyLTRFrom]
  | cons e rest ih =>
    intro t pos hlt hb hch hpos hptl
    have he1 : e.start < e.stop := hlt e (by simp)
    have he2 : e.stop ≤ t.length := hb e (by simp)
    have hpe : pos ≤ e.start := hpos e (by simp)
    have hrs : rangeStart e = e.start := by simp only [rangeStart]; omega
    have hre : rangeEnd e = e.stop := by simp only [rangeEnd]; omega
    have hconn : ∀ r ∈ rest.head?.toList, e.stop ≤ r.start := by
      cases rest with
      | nil => intro r hr; simp at hr
      | cons r rest' =>
        intro r' hr'
        simp at hr'
        subst hr'
        exact (List.chain'_cons.mp hch).1
    have hX := ih t e.stop (fun x hx => hlt x (by simp [hx])) (fun x hx => hb x (by simp [hx]))
      hch.tail hconn he2
    rw [List.foldr_cons, hX]
    have htl : (t.take e.stop).length = e.stop := by
      rw [List.length_take]; omega
    have hta : t.take pos ++ (t.drop pos).take (e.start - pos) = t.take e.start := by
      have hsum : pos + (e.start - pos) = e.start := by omega
      rw [← List.take_add, hsum]
    rw [applyOne, hrs, hre]
    rw [List.take_append_eq_append_take, List.drop_append_eq_append_drop, htl]
    rw [List.take_take, Nat.min_eq_left (le_of_lt he1)]
    rw [List.drop_eq_nil_of_le (le_of_eq htl)]
    have hz : e.start - e.stop = 0 := by omega
    rw [hz, Nat.sub_self]
    simp only [List.take_zero, List.append_nil, List.nil_append, List.drop_zero]
    simp only [applyLTRFrom, hrs, hre]
    rw [← hta]
    simp [List.append_assoc]

/-- C2: applying a batch of same-node, non-overlapping, non-empty
suggestions in the engine's descending order yields exactly the text of a
sequential left-to-right application of each suggestion computed
independently against the original text. -/
theorem applyAllPOV_eq_leftToRight (t : List Char) (p : List Nat) (es : List Sug)
    (hpath : ∀ e ∈ es, e.path = p)
    (hlt : ∀ e ∈ es, e.start < e.stop)
    (hbound : ∀ e ∈ es, e.stop ≤ t.length)
    (hsep : List.Chain' (fun a b => a.stop ≤ b.start) es) :
    applyAllPOVSuggestions t es = applyLTRFrom t 0 es := by
  rw [applyAllPOVSuggestions, sortJS_desc p es hpath hlt hsep, List.foldl_reverse]
  have h := foldr_applyOne_splice es t 0 hlt hbound hsep
    (by intro e he; omega) (by omega)
  simpa using h

/-- The text and the offset-5/20/40 batch of the specification's example. -/
def ceBatchText : List Char := "abcdefghijklmnopqrstuvwxyzABCDEFGHIJKLMNOPQR".toList

/-- The concrete non-overlapping batch at offsets 5, 20, 40. -/
def ceBatch : List Sug :=
  [⟨[0], 5, 8, "XY".toList⟩, ⟨[0], 20, 23, "Z".toList⟩, ⟨[0], 40, 43, "W".toList⟩]

/-- C2 (witness): the batch equivalence evaluated on the concrete
offsets-5/20/40 example. -/
theorem applyAllPOV_eq_leftToRight_witness :
    List.Chain' (fun a b => a.stop ≤ b.start) ceBatch ∧
      applyAllPOVSuggestions ceBatchText ceBatch = applyLTRFrom ceBatchText 0 ceBatch :=
  ⟨by norm_num [ceBatch, List.chain'_cons, List.chain'_singleton],
    applyAllPOV_eq_leftToRight ceBatchText [0] ceBatch (by decide) (by decide) (by decide)
      (by norm_num [ceBatch, List.chain'_cons, List.chain'_singleton])⟩

/-- The loop body of getSuggestionAtCursor: walk the suggestions keeping
the best forward candidate (range start at or after the point, smallest
distance wins, strict comparison keeps the earliest) and the best backward
candidate, then return the forward one, else the backward one. -/
def cursorLoop (ppath : List Nat) (poff : Nat) :
    List Sug → Option (Sug × Nat) → Option (Sug × Nat) → Option Sug
  | [], after, before => (after.map Prod.fst).or (before.map Prod.fst)
  | s :: rest, after, before =>
    if s.path = ppath then
      if poff ≤ rangeStart s then
        match after with
        | none => cursorLoop ppath poff rest (some (s, rangeStart s - poff)) before
        | some (s₀, d₀) =>
          if rangeStart s - poff < d₀ then
            cursorLoop ppath poff rest (some (s, rangeStart s - poff)) before
          else cursorLoop ppath poff rest (some (s₀, d₀)) before
      else
        match before with
        | none => cursorLoop ppath poff rest after (some (s, poff - rangeStart s))
        | some (s₀, d₀) =>
          if poff - rangeStart s < d₀ then
            cursorLoop ppath poff rest after (some (s, poff - rangeStart s))
          else cursorLoop ppath poff rest after (some (s₀, d₀))
    else cursorLoop ppath poff rest after before

/-- getSuggestionAtCursor for a collapsed cursor at (ppath, poff). -/
def getSuggestionAtCursor (sugs : List Sug) (ppath : List Nat) (poff : Nat) : Option Sug :=
  cursorLoop ppath poff sugs none none

/-- A forward candidate: same text node, range start at or after the point. -/
def fwdP (ppath : List Nat) (poff : Nat) (s : Sug) : Prop :=
  s.path = ppath ∧ poff ≤ rangeStart s

/-- A backward candidate: same text node, range start before the point. -/
def bwdP (ppath : List Nat) (poff : Nat) (s : Sug) : Prop :=
  s.path = ppath ∧ rangeStart s < poff

instance (ppath : List Nat) (poff : Nat) : DecidablePred (fwdP ppath poff) := fun s =>
  inferInstanceAs (Decidable (s.path = ppath ∧ poff ≤ rangeStart s))

instance (ppath : List Nat) (poff : Nat) : DecidablePred (bwdP ppath poff) := fun s =>
  inferInstanceAs (Decidable (s.path = ppath ∧ rangeStart s < poff))

/-- Generic running-minimum selection used to characterize the loop: keep
the first element attaining the minimal key among those satisfying p. -/
def selectMin {α : Type} (p : α → Prop) [DecidablePred p] (key : α → Nat) :
    List α → Option (α × Nat) → Option (α × Nat)
  | [], acc => acc
  | s :: rest, acc =>
    if p s then
      match acc with
      | none => selectMin p key rest (some (s, key s))
      | some (s₀, d₀) =>
        if key s < d₀ then selectMin p key rest (some (s, key s))
        else selectMin p key rest (some (s₀, d₀))
    else selectMin p key rest acc

theorem cursorLoop_eq (ppath : List Nat) (poff : Nat) (sugs : List Sug) :
    ∀ (after before : Option (Sug × Nat)),
      cursorLoop ppath poff sugs after before =
        ((selectMin (fwdP ppath poff) (fun s => rangeStart s - poff) sugs after).map
            Prod.fst).or
          ((selectMin (bwdP ppath poff) (fun s => poff - rangeStart s) sugs before).map
            Prod.fst) := by
  induction sugs with
  | nil => intro after before; rfl
  | cons s rest ih =>
    intro after before
    by_cases hp : s.path = ppath
    · by_cases hf : poff ≤ rangeStart s
      · have hnb : ¬ bwdP ppath poff s := by
          intro hb
          have h2 := hb.2
          omega
        have hyf : fwdP ppath poff s := ⟨hp, hf⟩
        rcases after with _ | ⟨s₀, d₀⟩
        · simp only [cursorLoop, if_pos hp, if_pos hf, selectMin, if_pos hyf, if_neg hnb]
          exact ih (some (s, rangeStart s - poff)) before
        · by_cases hlt : rangeStart s - poff < d₀
          · simp only [cursorLoop, if_pos hp, if_pos hf, selectMin, if_pos hyf, if_neg hnb,
              if_pos hlt]
            exact ih (some (s, rangeStart s - poff)) before
          · simp only [cursorLoop, if_pos hp, if_pos hf, selectMin, if_pos hyf, if_neg hnb,
              if_neg hlt]
            exact ih (some (s₀, d₀)) before
      · have hnf : ¬ fwdP ppath poff s := by
          intro hb
          exact hf hb.2
        have hyb : bwdP ppath poff s := ⟨hp, by omega⟩
        rcases before with _ | ⟨s₀, d₀⟩
        · simp only [cursorLoop, if_pos hp, if_neg hf, selectMin, if_pos hyb, if_neg hnf]
          exact ih after (some (s, poff - rangeStart s))
        · by_cases hlt : poff - rangeStart s < d₀
          · simp only [cursorLoop, if_pos hp, if_neg hf, selectMin, if_pos hyb, if_neg hnf,
              if_pos hlt]
            exact ih after (some (s, poff - rangeStart s))
          · simp only [cursorLoop, if_pos hp, if_neg hf, selectMin, if_pos hyb, if_neg hnf,
              if_neg hlt]
            exact ih after (some (s₀, d₀))
    · have hnf : ¬ fwdP ppath poff s := fun hb => hp hb.1
      have hnb : ¬ bwdP ppath poff s := fun hb => hp hb.1
      simp only [cursorLoop, if_neg hp, selectMin, if_neg hnf, if_neg hnb]
      exact ih after before

theorem selectMin_eq_none {α : Type} (p : α → Prop) [DecidablePred p] (key : α → Nat)
    (l : List α) : ∀ (acc : Option (α × Nat)),
      selectMin p key l acc = none ↔ acc = none ∧ ∀ s ∈ l, ¬ p s := by
  induction l with
  | nil => intro acc; simp [selectMin]
  | cons s rest ih =>
    intro acc
    by_cases hp : p s
    · rcases acc with _ | ⟨s₀, d₀⟩
      · simp only [selectMin, if_pos hp]
        rw [ih]
        constructor
        · rintro ⟨h1, _⟩
          exact absurd h1 (by simp)
        · rintro ⟨_, h2⟩
          exact absurd hp (h2 s (by simp))
      · by_cases hlt : key s < d₀
        · simp only [selectMin, if_pos hp, if_pos hlt]
          rw [ih]
          constructor
          · rintro ⟨h1, _⟩
            exact absurd h1 (by simp)
          · rintro ⟨h1, _⟩
            exact absurd h1 (by simp)
        · simp only [selectMin, if_pos hp, if_neg hlt]
          rw [ih]
          constructor
          · rintro ⟨h1, _⟩
            exact absurd h1 (by simp)
          · rintro ⟨h1, _⟩
            exact absurd h1 (by simp)
    · simp only [selectMin, if_neg hp]
      rw [ih]
      constructor
      · rintro ⟨h1, h2⟩
        refine ⟨h1, ?_⟩
        intro x hx
        rcases List.mem_cons.mp hx with rfl | hx2
        · exact hp
        · exact h2 x hx2
      · rintro ⟨h1, h2⟩
        exact ⟨h1, fun x hx => h2 x (by simp [hx])⟩

theorem selectMin_eq_some {α : Type} (p : α → Prop) [DecidablePred p] (key : α → Nat)
    (l : List α) : ∀ (acc : Option (α × Nat)) (s : α) (d : Nat),
      (∀ x kd, acc = some (x, kd) → kd = key x) →
      selectMin p key l acc = some (s, d) →
      d = key s ∧ (acc = some (s, d) ∨ (s ∈ l ∧ p s)) ∧
        (∀ x ∈ l, p x → key s ≤ key x) ∧
        (∀ x kd, acc = some (x, kd) → key s ≤ kd) := by
  induction l with
  | nil =>
    intro acc s d hacc h
    simp only [selectMin] at h
    refine ⟨hacc s d h, Or.inl h, by simp, ?_⟩
    intro x kd hx
    rw [hx] at h
    simp only [Option.some.injEq, Prod.mk.injEq] at h
    have hkd : kd = key x := hacc x kd hx
    rw [hkd, h.1]
  | cons a rest ih =>
    intro acc s d hacc h
    by_cases hp : p a
    · have haccA : ∀ x kd, (some (a, key a) : Option (α × Nat)) = some (x, kd) → kd = key x := by
        intro x kd hx
        simp only [Option.some.injEq, Prod.mk.injEq] at hx
        rw [← hx.1, ← hx.2]
      rcases acc with _ | ⟨s₀, d₀⟩
      · simp only [selectMin, if_pos hp] at h
        obtain ⟨hd, horig, hmin, haccb⟩ := ih (some (a, key a)) s d haccA h
        refine ⟨hd, ?_, ?_, ?_⟩
        · rcases horig with h1 | h1
          · simp only [Option.some.injEq, Prod.mk.injEq] at h1
            exact Or.inr ⟨by simp [h1.1.symm], h1.1 ▸ hp⟩
          · exact Or.inr ⟨by simp [h1.1], h1.2⟩
        · intro x hx hpx
          rcases List.mem_cons.mp hx with rfl | hx2
          · exact haccb x (key x) rfl
          · exact hmin x hx2 hpx
        · intro x kd hx
          simp at hx
      · have hd₀ : d₀ = key s₀ := hacc s₀ d₀ rfl
        by_cases hlt : key a < d₀
        · simp only [selectMin, if_pos hp, if_pos hlt] at h
          obtain ⟨hd, horig, hmin, haccb⟩ := ih (some (a, key a)) s d haccA h
          refine ⟨hd, ?_, ?_, ?_⟩
          · rcases horig with h1 | h1
            · simp only [Option.some.injEq, Prod.mk.injEq] at h1
              exact Or.inr ⟨by simp [h1.1.symm], h1.1 ▸ hp⟩
            · exact Or.inr ⟨by simp [h1.1], h1.2⟩
          · intro x hx hpx
            rcases List.mem_cons.mp hx with rfl | hx2
            · exact haccb x (key x) rfl
            · exact hmin x hx2 hpx
          · intro x kd hx
            simp only [Option.some.injEq, Prod.mk.injEq] at hx
            have h1 := haccb a (key a) rfl
            rw [← hx.2, hd₀]
            omega
        · simp only [selectMin, if_pos hp, if_neg hlt] at h
          obtain ⟨hd, horig, hmin, haccb⟩ := ih (some (s₀, d₀)) s d hacc h
          refine ⟨hd, ?_, ?_, ?_⟩
          · rcases horig with h1 | h1
            · exact Or.inl h1
            · exact Or.inr ⟨by simp [h1.1], h1.2⟩
          · intro x hx hpx
            rcases List.mem_cons.mp hx with rfl | hx2
            · have h1 := haccb s₀ d₀ rfl
              rw [hd₀] at h1 hlt
              omega
            · exact hmin x hx2 hpx
          · exact haccb
    · simp only [selectMin, if_neg hp] at h
      obtain ⟨hd, horig, hmin, haccb⟩ := ih acc s d hacc h
      refine ⟨hd, ?_, ?_, haccb⟩
      · rcases horig with h1 | h1
        · exact Or.inl h1
        · exact Or.inr ⟨by simp [h1.1], h1.2⟩
      · intro x hx hpx
        rcases List.mem_cons.mp hx with rfl | hx2
        · exact absurd hpx hp
        · exact hmin x hx2 hpx

/-- C7 (amended): getSuggestionAtCursor considers only suggestions in the
cursor's text node; it returns the one whose range start is nearest at or
after the point, else the one whose range start is nearest before the
point, and returns none exactly when no same-node suggestion exists.
Containment of the point grants no priority: a suggestion containing the
point competes only through its range start offset. -/
theorem getSuggestionAtCursor_policy (sugs : List Sug) (ppath : List Nat) (poff : Nat) :
    (getSuggestionAtCursor sugs ppath poff = none → ∀ s ∈ sugs, s.path ≠ ppath) ∧
      (∀ s, getSuggestionAtCursor sugs ppath poff = some s →
        s ∈ sugs ∧ s.path = ppath ∧
          ((poff ≤ rangeStart s ∧
              ∀ x ∈ sugs, x.path = ppath → poff ≤ rangeStart x → rangeStart s ≤ rangeStart x) ∨
            (rangeStart s < poff ∧ (∀ x ∈ sugs, x.path = ppath → rangeStart x < poff) ∧
              ∀ x ∈ sugs, x.path = ppath → rangeStart x ≤ rangeStart s))) := by
  have heq := cursorLoop_eq ppath poff sugs none none
  rcases hFv : selectMin (fwdP ppath poff) (fun s => rangeStart s - poff) sugs none
    with _ | ⟨sf, df⟩
  · have hnof := ((selectMin_eq_none (fwdP ppath poff) (fun s => rangeStart s - poff)
      sugs none).mp hFv).2
    rcases hBv : selectMin (bwdP ppath poff) (fun s => poff - rangeStart s) sugs none
      with _ | ⟨sb, db⟩
    · have hnob := ((selectMin_eq_none (bwdP ppath poff) (fun s => poff - rangeStart s)
        sugs none).mp hBv).2
      constructor
      · intro _ s hs hsp
        by_cases hc : poff ≤ rangeStart s
        · exact hnof s hs ⟨hsp, hc⟩
        · exact hnob s hs ⟨hsp, by omega⟩
      · intro s hsome
        rw [getSuggestionAtCursor, heq, hFv, hBv] at hsome
        simp at hsome
    · obtain ⟨hd, horig, hmin, _⟩ := selectMin_eq_some (bwdP ppath poff)
        (fun s => poff - rangeStart s) sugs none sb db (by simp) hBv
      rcases horig with h1 | h1
      · simp at h1
      constructor
      · intro hcontra
        rw [getSuggestionAtCursor, heq, hFv, hBv] at hcontra
        simp at hcontra
      · intro s hsome
        rw [getSuggestionAtCursor, heq, hFv, hBv] at hsome
        simp only [Option.map_some, Option.map_none, Option.or] at hsome
        have hsb : sb = s := Option.some.inj hsome
        subst hsb
        have hall : ∀ x ∈ sugs, x.path = ppath → rangeStart x < poff := by
          intro x hx hxp
          by_cases hc : poff ≤ rangeStart x
          · exact absurd ⟨hxp, hc⟩ (hnof x hx)
          · omega
        refine ⟨h1.1, h1.2.1, Or.inr ⟨h1.2.2, hall, ?_⟩⟩
        intro x hx hxp
        have hxb : rangeStart x < poff := hall x hx hxp
        have hmx := hmin x hx ⟨hxp, hxb⟩
        have hsb2 := h1.2.2
        omega
  · obtain ⟨hd, horig, hmin, _⟩ := selectMin_eq_some (fwdP ppath poff)
      (fun s => rangeStart s - poff) sugs none sf df (by simp) hFv
    rcases horig with h1 | h1
    · simp at h1
    constructor
    · intro hcontra
      rw [getSuggestionAtCursor, heq, hFv] at hcontra
      simp at hcontra
    · intro s hsome
      rw [getSuggestionAtCursor, heq, hFv] at hsome
      simp only [Option.map_some, Option.or] at hsome
      have hsf : sf = s := Option.some.inj hsome
      subst hsf
      refine ⟨h1.1, h1.2.1, Or.inl ⟨h1.2.2, ?_⟩⟩
      intro x hx hxp hxf
      have hmx := hmin x hx ⟨hxp, hxf⟩
      have hsf2 := h1.2.2
      omega

/-- The containing suggestion of the C7 counterexample. -/
def ceCursorA : Sug := ⟨[0], 0, 10, ['x']⟩

/-- The forward suggestion of the C7 counterexample. -/
def ceCursorB : Sug := ⟨[0], 6, 8, ['y']⟩

/-- C7 (counterexample): with the point at offset 5, the suggestion whose
range 0..10 CONTAINS the point is passed over in favor of the forward
suggestion starting at 6, refuting the containment-first policy. -/
theorem cursor_containment_ce :
    getSuggestionAtCursor [ceCursorA, ceCursorB] [0] 5 = some ceCursorB ∧
      rangeStart ceCursorA ≤ 5 ∧ 5 ≤ rangeEnd ceCursorA ∧ ceCursorB ≠ ceCursorA := by
  decide

/-- C7 (witness): the amended cursor policy evaluated on a single forward
suggestion. -/
theorem getSuggestionAtCursor_policy_witness :
    ceCursorB ∈ [ceCursorB] ∧ ceCursorB.path = [0] ∧
      ((5 ≤ rangeStart ceCursorB ∧
          ∀ x ∈ [ceCursorB], x.path = [0] → 5 ≤ rangeStart x →
            rangeStart ceCursorB ≤ rangeStart x) ∨
        (rangeStart ceCursorB < 5 ∧ (∀ x ∈ [ceCursorB], x.path = [0] → rangeStart x < 5) ∧
          ∀ x ∈ [ceCursorB], x.path = [0] → rangeStart x ≤ rangeStart ceCursorB)) :=
  (getSuggestionAtCursor_policy [ceCursorB] [0] 5).2 ceCursorB (by decide)

/-- A letter in the sense of the rules' [A-Za-z] character class. -/
def isAlphaChar (c : Char) : Bool := c.isAlpha

/-- A word boundary holds after the current position: the list is exhausted
or its head is not a word character. -/
def boundaryOk (l : List Char) : Bool :=
  match l.head? with
  | none => true
  | some c => !isWordChar c

/-- Try the repeated-word regex at the head of l: a maximal letter run, a
word boundary, a whitespace run, then the same letters again followed by a
word boundary; returns the word length and the whitespace length. -/
def tryRepeatAt (l : List Char) : Option (Nat × Nat) :=
  let w := l.takeWhile isAlphaChar
  if w.isEmpty then none
  else
    let rest1 := l.drop w.length
    if ¬ boundaryOk rest1 then none
    else
      let s := rest1.takeWhile isSpaceChar
      if s.isEmpty then none
      else
        let rest2 := rest1.drop s.length
        if rest2.take w.length = w ∧ boundaryOk (rest2.drop w.length) then
          some (w.length, s.length)
        else none

/-- The repeated-word rule: each match yields a suggestion deleting the
second word only, from start + word + spaces to the end of the second
word; scanning resumes after the match. Fuel bounds the recursion and one
unit per consumed character suffices. -/
def repeatWordScan (path : List Nat) : Nat → Nat → Bool → List Char → List Sug
  | 0, _, _, _ => []
  | _ + 1, _, _, [] => []
  | fuel + 1, i, prevWord, c :: rest =>
    match if prevWord then none else tryRepeatAt (c :: rest) with
    | some (wlen, slen) =>
      ⟨path, i + wlen + slen, i + wlen + slen + wlen, []⟩ ::
        repeatWordScan path fuel (i + wlen + slen + wlen) true
          (List.drop (wlen + slen + wlen) (c :: rest))
    | none => repeatWordScan path fuel (i + 1) (isWordChar c) rest

/-- The multi-space rule: every run of two or more literal spaces yields a
suggestion replacing the run by one space. -/
def doubleSpaceScan (path : List Nat) : Nat → Nat → List Char → List Sug
  | 0, _, _ => []
  | _ + 1, _, [] => []
  | fuel + 1, i, c :: rest =>
    if c = ' ' then
      let r := rest.takeWhile (fun d => d = ' ')
      if 1 ≤ r.length then
        ⟨path, i, i + 1 + r.length, [' ']⟩ ::
          doubleSpaceScan path fuel (i + 1 + r.length) (rest.drop r.length)
      else doubleSpaceScan path fuel (i + 1) rest
    else doubleSpaceScan path fuel (i + 1) rest

/-- The sentence-capitalization rule: punctuation, whitespace, then a lower
case letter yields a suggestion upper-casing that single letter. -/
def capScan (path : List Nat) : Nat → Nat → List Char → List Sug
  | 0, _, _ => []
  | _ + 1, _, [] => []
  | fuel + 1, i, c :: rest =>
    if c = '.' ∨ c = '!' ∨ c = '?' then
      let s := rest.takeWhile isSpaceChar
      if s.isEmpty then capScan path fuel (i + 1) rest
      else
        match (rest.drop s.length).head? with
        | some d =>
          if d.isLower then
            ⟨path, i + 1 + s.length, i + 1 + s.length + 1, [d.toUpper]⟩ ::
              capScan path fuel (i + 1 + s.length + 1) (rest.drop (s.length + 1))
          else capScan path fuel (i + 1) rest
        | none => capScan path fuel (i + 1) rest
    else capScan path fuel (i + 1) rest

/-- Does the following word start with a vowel, per the a/an heuristic? -/
def startsWithVowel (w : List Char) : Bool :=
  match w with
  | [] => false
  | d :: _ =>
    d.toLower == 'a' || d.toLower == 'e' || d.toLower == 'i' || d.toLower == 'o' ||
      d.toLower == 'u'

/-- Try the article regex at the head of l: the alternation tries "a"
first, then "an", each case-insensitively, followed by whitespace and a
letter run; returns the article token, the full match length and the
following word. -/
def tryArticleAt (l : List Char) : Option (List Char × Nat × List Char) :=
  match l with
  | [] => none
  | c :: rest =>
    if c = 'a' ∨ c = 'A' then
      let s1 := rest.takeWhile isSpaceChar
      let w1 := (rest.drop s1.length).takeWhile isAlphaChar
      if ¬ s1.isEmpty ∧ ¬ w1.isEmpty then some ([c], 1 + s1.length + w1.length, w1)
      else
        match rest with
        | [] => none
        | n :: rest2 =>
          if n = 'n' ∨ n = 'N' then
            let s2 := rest2.takeWhile isSpaceChar
            let w2 := (rest2.drop s2.length).takeWhile isAlphaChar
            if ¬ s2.isEmpty ∧ ¬ w2.isEmpty then some ([c, n], 2 + s2.length + w2.length, w2)
            else none
          else none
    else none

/-- The a/an rule: at each word-boundary article match, if the article
does not agree with the vowel heuristic of the following word, yield a
suggestion replacing just the article, case preserved via matchCase;
scanning resumes after the whole match either way. -/
def articleScan (path : List Nat) : Nat → Nat → Bool → List Char → List Sug
  | 0, _, _, _ => []
  | _ + 1, _, _, [] => []
  | fuel + 1, i, prevWord, c :: rest =>
    match if prevWord then none else tryArticleAt (c :: rest) with
    | some (art, mlen, w) =>
      let desired := if startsWithVowel w then "an".toList else "a".toList
      let restSugs := articleScan path fuel (i + mlen) true (List.drop mlen (c :: rest))
      if art.map Char.toLower ≠ desired then
        ⟨path, i, i + art.length, matchCase desired art⟩ :: restSugs
      else restSugs
    | none => articleScan path fuel (i + 1) (isWordChar c) rest

/-- The first engine version's local deterministic rules over one text
node, in source order: repeated word, multi-space, capitalization, a/an. -/
def localRuleSuggestions (path : List Nat) (text : List Char) : List Sug :=
  repeatWordScan path (text.length + 1) 0 false text ++
    doubleSpaceScan path (text.length + 1) 0 text ++
    capScan path (text.length + 1) 0 text ++
    articleScan path (text.length + 1) 0 false text

/-- The first engine version's full pass: local rules plus the optional
point-of-view propagation per node, then the start/length sort and the
seen-set de-dupe. -/
def getSuggestionsForParagraphV1 (nodes : List NodeRec) (targetPOV : Option POV) : List Sug :=
  dedupKeys (sortJS cmpStartLen (nodes.flatMap fun n =>
    localRuleSuggestions n.path n.text ++
      (match targetPOV with
        | some t => getPOVPropagationSuggestions n.text n.path t
        | none => [])))

/-- The demo paragraph text of the C9 claim. -/
def demoText : List Char :=
  "This is  a demo. It fixes the the basics. Try typing a apple.".toList

/-- The demo paragraph as a single text node. -/
def demoNode : NodeRec := ⟨[0, 0], demoText, 0, demoText.length⟩

/-- C9 (amended): on the demo text the local rules yield exactly three
suggestions: the double-space collapse over offsets 7..9, the repeat-word
removal deleting ONLY the second "the" at offsets 30..33 (the leading
space at offset 29 is not part of the range), and the article fix
replacing the "a" of "a apple" at offsets 53..54 by "an". -/
theorem localRules_demo :
    getSuggestionsForParagraphV1 [demoNode] none =
      [⟨[0, 0], 7, 9, [' ']⟩, ⟨[0, 0], 30, 33, []⟩, ⟨[0, 0], 53, 54, "an".toList⟩] := by
  decide

/-- C9 (counterexample): no suggestion of the pass spans offsets 29..33,
so the repeat-word removal does NOT delete the leading space of the second
"the"; the actual removal range is 30..33. -/
theorem localRules_repeatWord_ce :
    (⟨[0, 0], 30, 33, []⟩ : Sug) ∈ getSuggestionsForParagraphV1 [demoNode] none ∧
      ¬ ∃ s ∈ getSuggestionsForParagraphV1 [demoNode] none,
        rangeStart s = 29 ∧ rangeEnd s = 33 := by
  decide
